import Mathlib

/-!  Shallow embedding of muxwm's `src/model.rs` (`Repository` over a SQLite
store).

The entity records mirror the Rust structs field for field.  The SQLite store
is a `DB` record holding the three tables (`projects`, `views`, `pins`) as
lists in rowid (insertion) order, plus the connection's `last_insert_rowid`.
Rowids are assigned the way SQLite assigns `INTEGER PRIMARY KEY` rowids on
insert: one more than the largest rowid present in the table.  Rust `String`s
become `List Char`.  Machine integers (`i64`) are modelled as `Int`; none of
the verified operations can overflow them except after more than 2^63 inserts.

Fallible operations return `Except RepoError α × DB`: the second component is
the committed store after the call.  A failed statement or transaction leaves
the store unchanged (SQLite rolls an aborted transaction back; rusqlite's
`Transaction` rolls back when dropped without commit), so error branches
return the original `DB`.  Read-only operations take the `DB` and do not
return one.  -/

/-- Row of the `views` table / the Rust `View` struct. -/
structure View where
  id : Int
  name : List Char
  project_id : Int
  position : Int
deriving DecidableEq

/-- Row of the `projects` table / the Rust `Project` struct
(field order as in the Rust source: `active_view_id`, `id`, `name`). -/
structure Project where
  active_view_id : Int
  id : Int
  name : List Char
deriving DecidableEq

/-- Row of the `pins` table (`pins(id, key UNIQUE, view_id NOT NULL)`). -/
structure Pin where
  id : Int
  key : List Char
  view_id : Int
deriving DecidableEq

/-- The SQLite store owned by the `Repository`. -/
structure DB where
  projects : List Project
  views : List View
  pins : List Pin
  last_insert_rowid : Int
deriving DecidableEq

/-- The store right after `Repository::new` on a fresh database file:
three empty tables. -/
def emptyDB : DB := ⟨[], [], [], 0⟩

/-- Distinct failure causes of the repository operations.  The Rust code
returns untyped `anyhow`/`rusqlite` errors; these constructors name the
distinct places an error is produced. -/
inductive RepoError where
  /-- A `UNIQUE` or `FOREIGN KEY` constraint rejected a write
  (e.g. a duplicate project name). -/
  | constraintViolation
  /-- The message "no active view" from `get_next_view_for_project` /
  `get_prev_view_for_project`. -/
  | noActiveView
  /-- The message "no next view" when a project has no views at all. -/
  | noNextView
  /-- The message "view is not in the project" from
  `set_active_view_for_project`. -/
  | viewNotInProject
  /-- `SELECT MAX(position)` returned SQL `NULL` (the project has no views)
  and `row.get::<_, i64>` failed on it, aborting `add_view_to_project`. -/
  | nullMaxPosition
  /-- An `unwrap()` on `None` (defensive; unreachable in committed states). -/
  | panicked
deriving DecidableEq

/-- The `default_view_name` field of `Repository`: the string `"view"`. -/
def default_view_name : List Char := ['v', 'i', 'e', 'w']

/-- Rowid SQLite assigns to a fresh `INTEGER PRIMARY KEY` row: one more than
the largest rowid in the table (`0 + 1` on an empty table). -/
def newRowId (ids : List Int) : Int := ids.foldl max 0 + 1

/-- `Repository::get_view_by_id`:
`SELECT id, name, project_id, position FROM views WHERE id = ?1`. -/
def get_view_by_id (db : DB) (id : Int) : Option View :=
  db.views.find? (fun v => v.id == id)

/-- `Repository::get_project_by_id`:
`SELECT id, name, active_view_id FROM projects WHERE id = ?1`. -/
def get_project_by_id (db : DB) (id : Int) : Option Project :=
  db.projects.find? (fun p => p.id == id)

/-- `Repository::get_project_by_name`:
`SELECT id, name, active_view_id FROM projects WHERE name = ?1`. -/
def get_project_by_name (db : DB) (name : List Char) : Option Project :=
  db.projects.find? (fun p => p.name == name)

/-- One `INSERT INTO projects (name, active_view_id) VALUES (?1, ?2)`
statement: rejected by the `UNIQUE` constraint on `projects.name` if the name
is taken, otherwise appends a row under a fresh rowid and records it as
`last_insert_rowid`.  (The deferred foreign key on `active_view_id` is checked
by the enclosing transaction at commit.) -/
def insertProject (db : DB) (name : List Char) (active_view_id : Int) :
    Except RepoError Int × DB :=
  if db.projects.any (fun p => p.name == name) then
    (.error .constraintViolation, db)
  else
    let id := newRowId (db.projects.map Project.id)
    (.ok id,
      { db with
          projects := db.projects ++ [⟨active_view_id, id, name⟩],
          last_insert_rowid := id })

/-- One `INSERT INTO views (name, project_id, position) VALUES (?1, ?2, ?3)`
statement: rejected by `UNIQUE(project_id, position)` on a duplicate slot,
otherwise appends a row under a fresh rowid.  (The deferred foreign key on
`project_id` is checked by the enclosing transaction at commit.) -/
def insertView (db : DB) (name : List Char) (project_id position : Int) :
    Except RepoError Int × DB :=
  if db.views.any (fun v => v.project_id == project_id && v.position == position) then
    (.error .constraintViolation, db)
  else
    let id := newRowId (db.views.map View.id)
    (.ok id,
      { db with
          views := db.views ++ [⟨id, name, project_id, position⟩],
          last_insert_rowid := id })

/-- `Repository::add_project`: inside one transaction, insert the project with
a placeholder `active_view_id`, insert the default view at position `0`, and
patch the project to point at it.  Any statement failure aborts the whole
transaction, leaving the store unchanged.  Both deferred foreign keys hold at
commit by construction: the view references the project row inserted first,
and the patched `active_view_id` is the rowid of the view just inserted. -/
def add_project (db : DB) (name : List Char) : Except RepoError Int × DB :=
  match insertProject db name 0 with
  | (.error e, _) => (.error e, db)
  | (.ok project_id, db1) =>
    match insertView db1 default_view_name project_id 0 with
    | (.error e, _) => (.error e, db)
    | (.ok view_id, db2) =>
      (.ok project_id,
        { db2 with
            projects := db2.projects.map (fun p =>
              if p.id == project_id then { p with active_view_id := view_id } else p) })

/-- `Repository::get_active_view_for_project`: resolves the snapshot's
`active_view_id` against the `views` table. -/
def get_active_view_for_project (db : DB) (project : Project) : Option View :=
  db.views.find? (fun v => v.id == project.active_view_id)

/-- `Repository::set_active_view_for_project`: rejects a view whose
`project_id` differs from the project's id before touching the store;
otherwise `UPDATE projects SET active_view_id = ?1 WHERE id = ?2`.  The
deferred foreign key on `active_view_id` is checked at the end of the
implicit single-statement transaction: it fails exactly when a row was
actually rewritten to a view id absent from `views`. -/
def set_active_view_for_project (db : DB) (project : Project) (view : View) :
    Except RepoError View × DB :=
  if view.project_id == project.id then
    if db.projects.any (fun p => p.id == project.id)
        && !(db.views.any (fun v => v.id == view.id)) then
      (.error .constraintViolation, db)
    else
      (.ok view,
        { db with
            projects := db.projects.map (fun p =>
              if p.id == project.id then { p with active_view_id := view.id } else p) })
  else
    (.error .viewNotInProject, db)

/-- First element of a minimal `position` in a list of view rows; models
`ORDER BY position ASC LIMIT 1` over an already-filtered row set. -/
def minByPosition : List View → Option View
  | [] => none
  | v :: vs =>
    some (vs.foldl (fun acc w => if w.position < acc.position then w else acc) v)

/-- First element of a maximal `position` in a list of view rows; models
`ORDER BY position DESC LIMIT 1` over an already-filtered row set. -/
def maxByPosition : List View → Option View
  | [] => none
  | v :: vs =>
    some (vs.foldl (fun acc w => if acc.position < w.position then w else acc) v)

/-- `Repository::add_view_to_project`: inside one transaction, read
`MAX(position)` over the project's views — a SQL `NULL` (no views) makes
`row.get::<_, i64>` fail and aborts the transaction — then insert the new
view at that maximum plus one.  The deferred foreign key on `project_id` is
checked at commit and rolls the transaction back if the project row is
missing.  After the commit the code re-reads the inserted row (`unwrap`), and
sets it active with `set_active_view_for_project`, discarding that call's
result (`let _ = ...`). -/
def add_view_to_project (db : DB) (project : Project) (name : List Char) :
    Except RepoError View × DB :=
  match maxByPosition (db.views.filter (fun v => v.project_id == project.id)) with
  | none => (.error .nullMaxPosition, db)
  | some m =>
    match insertView db name project.id (m.position + 1) with
    | (.error e, _) => (.error e, db)
    | (.ok view_id, db1) =>
      if db1.projects.any (fun p => p.id == project.id) then
        match get_view_by_id db1 view_id with
        | none => (.error .panicked, db1)
        | some view =>
          (.ok view, (set_active_view_for_project db1 project view).2)
      else
        (.error .constraintViolation, db)

/-- `Repository::get_next_view_for_project`: resolve the snapshot's active
view; select the project's view with the smallest `position` strictly above
it; if none, wrap to the project's view with the smallest `position` overall.
Read-only (the Rust method takes `&self` and only runs `SELECT`s). -/
def get_next_view_for_project (db : DB) (project : Project) :
    Except RepoError View :=
  match get_active_view_for_project db project with
  | none => .error .noActiveView
  | some active =>
    match minByPosition (db.views.filter (fun v =>
        v.project_id == project.id && decide (active.position < v.position))) with
    | some v => .ok v
    | none =>
      match minByPosition (db.views.filter (fun v => v.project_id == project.id)) with
      | some v => .ok v
      | none => .error .noNextView

/-- `Repository::get_prev_view_for_project`: mirror image of
`get_next_view_for_project` with the comparison and order reversed. -/
def get_prev_view_for_project (db : DB) (project : Project) :
    Except RepoError View :=
  match get_active_view_for_project db project with
  | none => .error .noActiveView
  | some active =>
    match maxByPosition (db.views.filter (fun v =>
        v.project_id == project.id && decide (v.position < active.position))) with
    | some v => .ok v
    | none =>
      match maxByPosition (db.views.filter (fun v => v.project_id == project.id)) with
      | some v => .ok v
      | none => .error .noNextView

/-- `Repository::get_window_manager_display_name`: look the owning project up
by the view's `project_id` and format `"{project_name}#{view_name}"`. -/
def get_window_manager_display_name (db : DB) (view : View) :
    Option (List Char) :=
  (db.projects.find? (fun p => p.id == view.project_id)).map
    (fun p => p.name ++ '#' :: view.name)

/-- Rust `name.split("#")` for the one-character separator `'#'`:
`"a#b" ↦ ["a", "b"]`, `"ab" ↦ ["ab"]`, `"#" ↦ ["", ""]`, `"" ↦ [""]`. -/
def splitHash : List Char → List (List Char)
  | [] => [[]]
  | c :: rest =>
    match splitHash rest with
    | [] => [[]]
    | s :: ss => if c = '#' then [] :: s :: ss else (c :: s) :: ss

/-- `Repository::get_project_from_window_manager_display_name`: split on
`'#'`, require exactly two parts, and look the project up by the first. -/
def get_project_from_window_manager_display_name (db : DB) (name : List Char) :
    Option Project :=
  match splitHash name with
  | [project_name, _] => db.projects.find? (fun p => p.name == project_name)
  | _ => none

/-- `Repository::get_view_from_window_manager_display_name`: split on `'#'`,
require exactly two parts, and run the `projects JOIN views` lookup.  With the
`UNIQUE` index on `projects.name` the query plan probes that index and scans
`views` in rowid order, so `query_row` yields the earliest matching view row. -/
def get_view_from_window_manager_display_name (db : DB) (name : List Char) :
    Option View :=
  match splitHash name with
  | [project_name, view_name] =>
    match db.projects.find? (fun p => p.name == project_name) with
    | none => none
    | some proj =>
      db.views.find? (fun v => v.project_id == proj.id && v.name == view_name)
  | _ => none

/-- `Repository::upsert_pin`:
`INSERT INTO pins ... ON CONFLICT(key) DO UPDATE SET view_id = ?2`, guarded by
the immediate foreign key from `pins.view_id` to `views.id`.  On the conflict
path no insert happens, so `last_insert_rowid` (which the method returns) is
left as it was. -/
def upsert_pin (db : DB) (key : List Char) (view : View) :
    Except RepoError Int × DB :=
  if db.views.any (fun v => v.id == view.id) then
    match db.pins.find? (fun p => p.key == key) with
    | some _ =>
      (.ok db.last_insert_rowid,
        { db with
            pins := db.pins.map (fun p =>
              if p.key == key then { p with view_id := view.id } else p) })
    | none =>
      let id := newRowId (db.pins.map Pin.id)
      (.ok id,
        { db with pins := db.pins ++ [⟨id, key, view.id⟩], last_insert_rowid := id })
  else
    (.error .constraintViolation, db)

/-- `Repository::clear_pin`: `DELETE FROM pins WHERE key = ?1`; deleting an
absent key affects zero rows and still succeeds. -/
def clear_pin (db : DB) (key : List Char) : Except RepoError Unit × DB :=
  (.ok (), { db with pins := db.pins.filter (fun p => !(p.key == key)) })

/-- `Repository::get_view_for_pin_key`: the `views JOIN pins` lookup — find
the pin row for the key, then the view row it references (a dangling pin
yields no joined row, hence `None`). -/
def get_view_for_pin_key (db : DB) (key : List Char) : Option View :=
  match db.pins.find? (fun p => p.key == key) with
  | none => none
  | some p => db.views.find? (fun v => v.id == p.view_id)

/-- `Repository::get_pin_key_for_view`:
`SELECT key FROM pins WHERE view_id = ?1` — first matching pin row in rowid
order. -/
def get_pin_key_for_view (db : DB) (view : View) : Option (List Char) :=
  (db.pins.find? (fun p => p.view_id == view.id)).map Pin.key

/-!  Generic list lemmas used throughout the development. -/

theorem le_foldl_max (l : List Int) (a : Int) : a ≤ l.foldl max a := by
  induction l generalizing a with
  | nil => exact le_refl a
  | cons x xs ih => exact le_trans (le_max_left a x) (ih (max a x))

theorem mem_le_foldl_max (l : List Int) (a x : Int) (hx : x ∈ l) :
    x ≤ l.foldl max a := by
  induction l generalizing a with
  | nil => cases hx
  | cons y ys ih =>
    rcases List.mem_cons.mp hx with h | h
    · subst h
      exact le_trans (le_max_right a x) (le_foldl_max ys (max a x))
    · exact ih (max a y) h

theorem lt_newRowId (ids : List Int) (x : Int) (hx : x ∈ ids) : x < newRowId ids :=
  lt_of_le_of_lt (mem_le_foldl_max ids 0 x hx) (lt_add_one _)

theorem nodup_append_single {α : Type} (l : List α) (a : α) (h : l.Nodup)
    (ha : a ∉ l) : (l ++ [a]).Nodup := by
  induction l with
  | nil => simp
  | cons x xs ih =>
    rcases List.nodup_cons.mp h with ⟨hx, hxs⟩
    refine List.nodup_cons.mpr ⟨?_, ih hxs (fun hm => ha (List.mem_cons_of_mem x hm))⟩
    intro hmem
    rcases List.mem_append.mp hmem with h1 | h1
    · exact hx h1
    · rcases List.mem_singleton.mp h1 with rfl
      exact ha (List.mem_cons_self x xs)

theorem find_unique {α β : Type} [BEq β] [LawfulBEq β] (l : List α) (f : α → β)
    (hnd : (l.map f).Nodup) (a : α) (ha : a ∈ l) :
    l.find? (fun x => f x == f a) = some a := by
  induction l with
  | nil => cases ha
  | cons x xs ih =>
    rcases List.mem_cons.mp ha with h | h
    · subst h
      simp [List.find?]
    · have hx : f x ≠ f a := by
        intro he
        have : f a ∈ xs.map f := List.mem_map_of_mem f h
        rw [← he] at this
        exact (List.nodup_cons.mp hnd).1 this
      have : (f x == f a) = false := beq_false_of_ne hx
      simp only [List.find?, this]
      exact ih (List.nodup_cons.mp hnd).2 h

theorem find_of_pred_unique {α : Type} (l : List α) (p : α → Bool) (a : α)
    (ha : a ∈ l) (hp : p a = true) (huniq : ∀ b ∈ l, p b = true → b = a) :
    l.find? p = some a := by
  induction l with
  | nil => cases ha
  | cons x xs ih =>
    by_cases hx : p x = true
    · have : x = a := huniq x (List.mem_cons_self x xs) hx
      subst this
      simp [List.find?, hx]
    · have hxa : x ≠ a := fun he => hx (he ▸ hp)
      have ha' : a ∈ xs := by
        rcases List.mem_cons.mp ha with h | h
        · exact absurd h.symm hxa
        · exact h
      simp only [List.find?, Bool.of_not_eq_true hx]
      exact ih ha' (fun b hb => huniq b (List.mem_cons_of_mem x hb))

theorem find?_eq_head?_filter {α : Type} (l : List α) (p : α → Bool) :
    l.find? p = (l.filter p).head? := by
  induction l with
  | nil => rfl
  | cons x xs ih =>
    by_cases hx : p x = true
    · simp [List.find?, List.filter, hx]
    · simp only [List.find?, List.filter, Bool.of_not_eq_true hx]
      exact ih

/-!  Facts about `minByPosition`, `maxByPosition` and `splitHash`. -/

theorem foldlMin_mem (vs : List View) (v : View) :
    vs.foldl (fun acc w => if w.position < acc.position then w else acc) v ∈ v :: vs := by
  induction vs generalizing v with
  | nil => exact List.mem_singleton.mpr rfl
  | cons x xs ih =>
    simp only [List.foldl_cons]
    rcases List.mem_cons.mp (ih (if x.position < v.position then x else v)) with h | h
    · by_cases hc : x.position < v.position
      · rw [h, if_pos hc]
        exact List.mem_cons_of_mem v (List.mem_cons_self x xs)
      · rw [h, if_neg hc]
        exact List.mem_cons_self v (x :: xs)
    · exact List.mem_cons_of_mem v (List.mem_cons_of_mem x h)

theorem foldlMin_le (vs : List View) (v : View) :
    (vs.foldl (fun acc w => if w.position < acc.position then w else acc) v).position ≤ v.position ∧
      ∀ w ∈ vs,
        (vs.foldl (fun acc w => if w.position < acc.position then w else acc) v).position ≤ w.position := by
  induction vs generalizing v with
  | nil => exact ⟨le_refl _, fun w hw => absurd hw (List.not_mem_nil w)⟩
  | cons x xs ih =>
    simp only [List.foldl_cons]
    rcases ih (if x.position < v.position then x else v) with ⟨h1, h2⟩
    constructor
    · refine le_trans h1 ?_
      by_cases hc : x.position < v.position
      · rw [if_pos hc]; exact le_of_lt hc
      · rw [if_neg hc]
    · intro w hw
      rcases List.mem_cons.mp hw with h | h
      · subst h
        refine le_trans h1 ?_
        by_cases hc : w.position < v.position
        · rw [if_pos hc]
        · rw [if_neg hc]; exact le_of_not_lt hc
      · exact h2 w h

theorem minByPosition_spec (l : List View) (v : View) (h : minByPosition l = some v) :
    v ∈ l ∧ ∀ w ∈ l, v.position ≤ w.position := by
  cases l with
  | nil => cases h
  | cons x xs =>
    have hv : v = xs.foldl (fun acc w => if w.position < acc.position then w else acc) x := by
      simpa [minByPosition] using h.symm
    subst hv
    refine ⟨foldlMin_mem xs x, ?_⟩
    intro w hw
    rcases List.mem_cons.mp hw with h1 | h1
    · subst h1; exact (foldlMin_le xs w).1
    · exact (foldlMin_le xs x).2 w h1

theorem minByPosition_eq_none (l : List View) : minByPosition l = none ↔ l = [] := by
  cases l <;> simp [minByPosition]

theorem foldlMax_mem (vs : List View) (v : View) :
    vs.foldl (fun acc w => if acc.position < w.position then w else acc) v ∈ v :: vs := by
  induction vs generalizing v with
  | nil => exact List.mem_singleton.mpr rfl
  | cons x xs ih =>
    simp only [List.foldl_cons]
    rcases List.mem_cons.mp (ih (if v.position < x.position then x else v)) with h | h
    · by_cases hc : v.position < x.position
      · rw [h, if_pos hc]
        exact List.mem_cons_of_mem v (List.mem_cons_self x xs)
      · rw [h, if_neg hc]
        exact List.mem_cons_self v (x :: xs)
    · exact List.mem_cons_of_mem v (List.mem_cons_of_mem x h)

theorem foldlMax_ge (vs : List View) (v : View) :
    v.position ≤ (vs.foldl (fun acc w => if acc.position < w.position then w else acc) v).position ∧
      ∀ w ∈ vs,
        w.position ≤ (vs.foldl (fun acc w => if acc.position < w.position then w else acc) v).position := by
  induction vs generalizing v with
  | nil => exact ⟨le_refl _, fun w hw => absurd hw (List.not_mem_nil w)⟩
  | cons x xs ih =>
    simp only [List.foldl_cons]
    rcases ih (if v.position < x.position then x else v) with ⟨h1, h2⟩
    constructor
    · refine le_trans ?_ h1
      by_cases hc : v.position < x.position
      · rw [if_pos hc]; exact le_of_lt hc
      · rw [if_neg hc]
    · intro w hw
      rcases List.mem_cons.mp hw with h | h
      · subst h
        refine le_trans ?_ h1
        by_cases hc : v.position < w.position
        · rw [if_pos hc]
        · rw [if_neg hc]; exact le_of_not_lt hc
      · exact h2 w h

theorem maxByPosition_spec (l : List View) (v : View) (h : maxByPosition l = some v) :
    v ∈ l ∧ ∀ w ∈ l, w.position ≤ v.position := by
  cases l with
  | nil => cases h
  | cons x xs =>
    have hv : v = xs.foldl (fun acc w => if acc.position < w.position then w else acc) x := by
      simpa [maxByPosition] using h.symm
    subst hv
    refine ⟨foldlMax_mem xs x, ?_⟩
    intro w hw
    rcases List.mem_cons.mp hw with h1 | h1
    · subst h1; exact (foldlMax_ge xs w).1
    · exact (foldlMax_ge xs x).2 w h1

theorem maxByPosition_eq_none (l : List View) : maxByPosition l = none ↔ l = [] := by
  cases l <;> simp [maxByPosition]

theorem splitHash_ne_nil (l : List Char) : splitHash l ≠ [] := by
  cases l with
  | nil => simp [splitHash]
  | cons c rest =>
    simp only [splitHash]
    cases splitHash rest with
    | nil => simp
    | cons s ss =>
      by_cases hc : c = '#' <;> simp [hc]

theorem splitHash_length (l : List Char) :
    (splitHash l).length = l.count '#' + 1 := by
  induction l with
  | nil => simp [splitHash]
  | cons c rest ih =>
    simp only [splitHash]
    rcases hs : splitHash rest with _ | ⟨s, ss⟩
    · exact absurd hs (splitHash_ne_nil rest)
    · by_cases hc : c = '#'
      · subst hc
        simp only [if_pos rfl, List.length_cons, List.count_cons]
        rw [hs] at ih
        simp only [List.length_cons] at ih
        simp [ih]
      · simp only [if_neg hc, List.length_cons, List.count_cons]
        rw [hs] at ih
        simp only [List.length_cons] at ih
        simp [ih, hc]

theorem splitHash_no_sep (l : List Char) (h : '#' ∉ l) : splitHash l = [l] := by
  induction l with
  | nil => rfl
  | cons c rest ih =>
    have hc : c ≠ '#' := fun he => h (he ▸ List.mem_cons_self c rest)
    have hrest : '#' ∉ rest := fun hm => h (List.mem_cons_of_mem c hm)
    simp [splitHash, ih hrest, hc]

theorem splitHash_append (a b : List Char) (ha : '#' ∉ a) :
    splitHash (a ++ '#' :: b) = a :: splitHash b := by
  induction a with
  | nil =>
    simp only [List.nil_append, splitHash]
    rcases hs : splitHash b with _ | ⟨s, ss⟩
    · exact absurd hs (splitHash_ne_nil b)
    · simp
  | cons c rest ih =>
    have hc : c ≠ '#' := fun he => ha (he ▸ List.mem_cons_self c rest)
    have hrest : '#' ∉ rest := fun hm => ha (List.mem_cons_of_mem c hm)
    simp only [List.cons_append, splitHash]
    rw [List.append_eq, ih hrest]
    simp [hc]

/-!  Schema-level well-formedness of a store and characterizations of the
mutating operations. -/

/-- Constraints the SQLite schema enforces on every committed store: primary
keys are unique, `projects.name` is unique, `(project_id, position)` is unique
over `views`, `pins.key` is unique, both foreign keys resolve — plus the
repository's own invariant that `active_view_id` names a view of the same
project. -/
structure WF (db : DB) : Prop where
  proj_id_nodup : (db.projects.map Project.id).Nodup
  proj_name_nodup : (db.projects.map Project.name).Nodup
  view_id_nodup : (db.views.map View.id).Nodup
  view_slot_nodup : (db.views.map (fun v => (v.project_id, v.position))).Nodup
  pin_id_nodup : (db.pins.map Pin.id).Nodup
  pin_key_nodup : (db.pins.map Pin.key).Nodup
  view_fk : ∀ v ∈ db.views, ∃ p ∈ db.projects, p.id = v.project_id
  pin_fk : ∀ pn ∈ db.pins, ∃ v ∈ db.views, v.id = pn.view_id
  active_fk : ∀ p ∈ db.projects, ∃ v ∈ db.views, v.id = p.active_view_id ∧ v.project_id = p.id

theorem wf_empty : WF emptyDB := by
  constructor <;> simp [emptyDB]

theorem update_projects_skip (l : List Project) (pid vid : Int)
    (h : ∀ p ∈ l, p.id ≠ pid) :
    l.map (fun p => if p.id == pid then { p with active_view_id := vid } else p) = l := by
  induction l with
  | nil => rfl
  | cons x xs ih =>
    have hx : (x.id == pid) = false := beq_false_of_ne (h x (List.mem_cons_self x xs))
    simp only [List.map_cons, hx, Bool.false_eq_true, if_false]
    rw [ih (fun p hp => h p (List.mem_cons_of_mem x hp))]

theorem update_projects_skip' (l : List Project) (pid vid : Int)
    (h : ∀ p ∈ l, p.id ≠ pid) :
    l.map (fun p => if p.id = pid then { p with active_view_id := vid } else p) = l := by
  induction l with
  | nil => rfl
  | cons x xs ih =>
    simp only [List.map_cons, if_neg (h x (List.mem_cons_self x xs))]
    rw [ih (fun p hp => h p (List.mem_cons_of_mem x hp))]

theorem fresh_project_id (db : DB) (p : Project) (hp : p ∈ db.projects) :
    p.id ≠ newRowId (db.projects.map Project.id) :=
  ne_of_lt (lt_newRowId _ _ (List.mem_map_of_mem Project.id hp))

theorem fresh_view_id (db : DB) (v : View) (hv : v ∈ db.views) :
    v.id ≠ newRowId (db.views.map View.id) :=
  ne_of_lt (lt_newRowId _ _ (List.mem_map_of_mem View.id hv))

theorem insertProject_ok (db : DB) (name : List Char) (avid : Int)
    (h : db.projects.any (fun p => p.name == name) = false) :
    insertProject db name avid =
      (.ok (newRowId (db.projects.map Project.id)),
       { db with
           projects := db.projects ++ [⟨avid, newRowId (db.projects.map Project.id), name⟩],
           last_insert_rowid := newRowId (db.projects.map Project.id) }) := by
  simp [insertProject, h]

theorem insertView_ok (db : DB) (name : List Char) (pidd pos : Int)
    (h : db.views.any (fun v => v.project_id == pidd && v.position == pos) = false) :
    insertView db name pidd pos =
      (.ok (newRowId (db.views.map View.id)),
       { db with
           views := db.views ++ [⟨newRowId (db.views.map View.id), name, pidd, pos⟩],
           last_insert_rowid := newRowId (db.views.map View.id) }) := by
  simp [insertView, h]

/-- Characterization of a successful `add_project` call: the duplicate-name
check passed, the default-view slot was free, and the committed store extends
the old one by exactly one project row and one view row. -/
theorem add_project_ok (db : DB) (name : List Char) (pid : Int)
    (h : (add_project db name).1 = .ok pid) :
    pid = newRowId (db.projects.map Project.id) ∧
    (∀ p ∈ db.projects, p.name ≠ name) ∧
    (∀ v ∈ db.views, ¬(v.project_id = pid ∧ v.position = 0)) ∧
    (add_project db name).2 =
      { projects := db.projects ++ [⟨newRowId (db.views.map View.id), pid, name⟩],
        views := db.views ++ [⟨newRowId (db.views.map View.id), default_view_name, pid, 0⟩],
        pins := db.pins,
        last_insert_rowid := newRowId (db.views.map View.id) } := by
  rcases hdup : db.projects.any (fun p => p.name == name) with _ | _
  case true =>
    exfalso
    simp [add_project, insertProject, hdup] at h
  case false =>
    have hnames : ∀ p ∈ db.projects, p.name ≠ name := by
      intro p hp he
      have : db.projects.any (fun p => p.name == name) = true :=
        List.any_eq_true.mpr ⟨p, hp, beq_iff_eq.mpr he⟩
      rw [hdup] at this
      cases this
    rcases hslot : db.views.any
        (fun v => v.project_id == newRowId (db.projects.map Project.id) && v.position == 0) with _ | _
    case true =>
      exfalso
      simp [add_project, insertProject, insertView, hdup, hslot] at h
    case false =>
      have hslots : ∀ v ∈ db.views,
          ¬(v.project_id = newRowId (db.projects.map Project.id) ∧ v.position = 0) := by
        intro v hv hvv
        have : db.views.any
            (fun v => v.project_id == newRowId (db.projects.map Project.id) && v.position == 0) = true :=
          List.any_eq_true.mpr ⟨v, hv, by simp [hvv.1, hvv.2]⟩
        rw [hslot] at this
        cases this
      have hpid : pid = newRowId (db.projects.map Project.id) := by
        simp [add_project, insertProject, insertView, hdup, hslot] at h
        exact h.symm
      subst hpid
      refine ⟨rfl, hnames, hslots, ?_⟩
      have e1 := insertProject_ok db name 0 hdup
      have e2 := insertView_ok
        { db with
            projects := db.projects ++ [⟨0, newRowId (db.projects.map Project.id), name⟩],
            last_insert_rowid := newRowId (db.projects.map Project.id) }
        default_view_name (newRowId (db.projects.map Project.id)) 0 (by simpa using hslot)
      simp only [add_project, e1, e2]
      have hmap : (db.projects ++ [(⟨0, newRowId (db.projects.map Project.id), name⟩ : Project)]).map
          (fun p => if p.id == newRowId (db.projects.map Project.id) then
            { p with active_view_id := newRowId (db.views.map View.id) } else p) =
          db.projects ++ [⟨newRowId (db.views.map View.id),
            newRowId (db.projects.map Project.id), name⟩] := by
        rw [List.map_append, update_projects_skip db.projects _ _ (fresh_project_id db)]
        simp
      simp [hmap]
      exact update_projects_skip' db.projects _ _ (fresh_project_id db)

theorem insertView_err (db : DB) (name : List Char) (pidd pos : Int)
    (h : db.views.any (fun v => v.project_id == pidd && v.position == pos) = true) :
    insertView db name pidd pos = (.error .constraintViolation, db) := by
  simp [insertView, h]

theorem newRowId_not_mem (ids : List Int) : newRowId ids ∉ ids :=
  fun hm => lt_irrefl _ (lt_newRowId ids _ hm)

/-- A failed `add_project` leaves the store untouched: the transaction is
rolled back. -/
theorem add_project_err (db : DB) (name : List Char) (e : RepoError)
    (h : (add_project db name).1 = .error e) :
    (add_project db name).2 = db := by
  rcases hdup : db.projects.any (fun p => p.name == name) with _ | _
  case true =>
    simp [add_project, insertProject, hdup]
  case false =>
    rcases hslot : db.views.any
        (fun v => v.project_id == newRowId (db.projects.map Project.id) && v.position == 0) with _ | _
    case true =>
      have e1 := insertProject_ok db name 0 hdup
      have e2 := insertView_err
        { db with
            projects := db.projects ++ [⟨0, newRowId (db.projects.map Project.id), name⟩],
            last_insert_rowid := newRowId (db.projects.map Project.id) }
        default_view_name (newRowId (db.projects.map Project.id)) 0 (by simpa using hslot)
      simp [add_project, e1, e2]
    case false =>
      exfalso
      have e1 := insertProject_ok db name 0 hdup
      have e2 := insertView_ok
        { db with
            projects := db.projects ++ [⟨0, newRowId (db.projects.map Project.id), name⟩],
            last_insert_rowid := newRowId (db.projects.map Project.id) }
        default_view_name (newRowId (db.projects.map Project.id)) 0 (by simpa using hslot)
      simp [add_project, e1, e2] at h

theorem wf_add_project (db : DB) (name : List Char) (hwf : WF db) :
    WF (add_project db name).2 := by
  rcases hr : (add_project db name).1 with e | pid
  · rw [add_project_err db name e hr]
    exact hwf
  · rcases add_project_ok db name pid hr with ⟨hpid, hnames, hslots, hdb⟩
    rw [hdb]
    subst hpid
    constructor
    · rw [List.map_append]
      refine nodup_append_single _ _ hwf.proj_id_nodup ?_
      simpa using newRowId_not_mem (db.projects.map Project.id)
    · rw [List.map_append]
      refine nodup_append_single _ _ hwf.proj_name_nodup ?_
      intro hm
      rcases List.mem_map.mp (by simpa using hm) with ⟨p, hp, he⟩
      exact hnames p hp he
    · rw [List.map_append]
      refine nodup_append_single _ _ hwf.view_id_nodup ?_
      simpa using newRowId_not_mem (db.views.map View.id)
    · rw [List.map_append]
      refine nodup_append_single _ _ hwf.view_slot_nodup ?_
      intro hm
      simp only [List.mem_map, Prod.mk.injEq] at hm
      rcases hm with ⟨v, hv, h1, h2⟩
      exact hslots v hv ⟨h1, h2⟩
    · exact hwf.pin_id_nodup
    · exact hwf.pin_key_nodup
    · intro v hv
      rcases List.mem_append.mp hv with h1 | h1
      · rcases hwf.view_fk v h1 with ⟨p, hp, he⟩
        exact ⟨p, List.mem_append_left _ hp, he⟩
      · rcases List.mem_singleton.mp h1 with rfl
        exact ⟨_, List.mem_append_right _ (List.mem_singleton.mpr rfl), rfl⟩
    · intro pn hpn
      rcases hwf.pin_fk pn hpn with ⟨v, hv, he⟩
      exact ⟨v, List.mem_append_left _ hv, he⟩
    · intro p hp
      rcases List.mem_append.mp hp with h1 | h1
      · rcases hwf.active_fk p h1 with ⟨v, hv, he1, he2⟩
        exact ⟨v, List.mem_append_left _ hv, he1, he2⟩
      · rcases List.mem_singleton.mp h1 with rfl
        exact ⟨_, List.mem_append_right _ (List.mem_singleton.mpr rfl), rfl, rfl⟩

theorem upd_active_id (p : Project) (pid vid : Int) :
    ((fun p => if p.id == pid then { p with active_view_id := vid } else p) p).id = p.id := by
  by_cases hx : p.id = pid <;> simp [hx]

theorem upd_active_map_id (l : List Project) (pid vid : Int) :
    (l.map (fun p => if p.id == pid then { p with active_view_id := vid } else p)).map Project.id
      = l.map Project.id := by
  rw [List.map_map]
  exact List.map_congr_left (fun p _ => upd_active_id p pid vid)

theorem upd_active_map_name (l : List Project) (pid vid : Int) :
    (l.map (fun p => if p.id == pid then { p with active_view_id := vid } else p)).map Project.name
      = l.map Project.name := by
  rw [List.map_map]
  refine List.map_congr_left (fun p _ => ?_)
  by_cases hx : p.id = pid <;> simp [hx]

theorem set_active_mismatch (db : DB) (project : Project) (view : View)
    (h : view.project_id ≠ project.id) :
    set_active_view_for_project db project view = (.error .viewNotInProject, db) := by
  simp [set_active_view_for_project, beq_false_of_ne h]

theorem set_active_ok (db : DB) (project : Project) (view : View)
    (h1 : view.project_id = project.id) (hview : view ∈ db.views) :
    set_active_view_for_project db project view =
      (.ok view,
       { db with
           projects := db.projects.map (fun p =>
             if p.id == project.id then { p with active_view_id := view.id } else p) }) := by
  have hv : db.views.any (fun v => v.id == view.id) = true :=
    List.any_eq_true.mpr ⟨view, hview, by simp⟩
  simp [set_active_view_for_project, h1, hv]

theorem wf_set_active (db : DB) (project : Project) (view : View) (hwf : WF db)
    (hview : view ∈ db.views) :
    WF (set_active_view_for_project db project view).2 := by
  by_cases h1 : view.project_id = project.id
  · rw [set_active_ok db project view h1 hview]
    constructor
    · rw [upd_active_map_id]
      exact hwf.proj_id_nodup
    · rw [upd_active_map_name]
      exact hwf.proj_name_nodup
    · exact hwf.view_id_nodup
    · exact hwf.view_slot_nodup
    · exact hwf.pin_id_nodup
    · exact hwf.pin_key_nodup
    · intro v hv
      rcases hwf.view_fk v hv with ⟨p, hp, he⟩
      refine ⟨_, List.mem_map_of_mem _ hp, ?_⟩
      rw [upd_active_id]
      exact he
    · exact hwf.pin_fk
    · intro q hq
      rcases List.mem_map.mp hq with ⟨p, hp, he⟩
      rcases hpc : p.id == project.id with _ | _
      · have hq2 : q = p := by rw [← he]; simp [hpc]
        rw [hq2]
        exact hwf.active_fk p hp
      · have hq2 : q = { p with active_view_id := view.id } := by rw [← he]; simp [hpc]
        rw [hq2]
        exact ⟨view, hview, rfl, by simpa [h1] using (beq_iff_eq.mp hpc).symm⟩
  · rw [set_active_mismatch db project view h1]
    exact hwf

theorem upsert_pin_err (db : DB) (k : List Char) (view : View)
    (hfk : db.views.any (fun v => v.id == view.id) = false) :
    upsert_pin db k view = (.error .constraintViolation, db) := by
  simp [upsert_pin, hfk]

theorem upsert_pin_insert (db : DB) (k : List Char) (view : View)
    (hfk : db.views.any (fun v => v.id == view.id) = true)
    (habs : db.pins.find? (fun p => p.key == k) = none) :
    upsert_pin db k view =
      (.ok (newRowId (db.pins.map Pin.id)),
       { db with
           pins := db.pins ++ [⟨newRowId (db.pins.map Pin.id), k, view.id⟩],
           last_insert_rowid := newRowId (db.pins.map Pin.id) }) := by
  simp [upsert_pin, hfk, habs]

theorem upsert_pin_update (db : DB) (k : List Char) (view : View) (p0 : Pin)
    (hfk : db.views.any (fun v => v.id == view.id) = true)
    (hfound : db.pins.find? (fun p => p.key == k) = some p0) :
    upsert_pin db k view =
      (.ok db.last_insert_rowid,
       { db with
           pins := db.pins.map (fun p =>
             if p.key == k then { p with view_id := view.id } else p) }) := by
  simp [upsert_pin, hfk, hfound]

theorem upd_pin_map_id (l : List Pin) (k : List Char) (vid : Int) :
    (l.map (fun p => if p.key == k then { p with view_id := vid } else p)).map Pin.id
      = l.map Pin.id := by
  rw [List.map_map]
  refine List.map_congr_left (fun p _ => ?_)
  by_cases hx : p.key = k <;> simp [hx]

theorem upd_pin_map_key (l : List Pin) (k : List Char) (vid : Int) :
    (l.map (fun p => if p.key == k then { p with view_id := vid } else p)).map Pin.key
      = l.map Pin.key := by
  rw [List.map_map]
  refine List.map_congr_left (fun p _ => ?_)
  by_cases hx : p.key = k <;> simp [hx]

theorem wf_upsert_pin (db : DB) (k : List Char) (view : View) (hwf : WF db) :
    WF (upsert_pin db k view).2 := by
  rcases hfk : db.views.any (fun v => v.id == view.id) with _ | _
  case false =>
    rw [upsert_pin_err db k view hfk]
    exact hwf
  case true =>
    have hvex : ∃ v ∈ db.views, v.id = view.id := by
      rcases List.any_eq_true.mp hfk with ⟨v, hv, he⟩
      exact ⟨v, hv, beq_iff_eq.mp he⟩
    rcases hfind : db.pins.find? (fun p => p.key == k) with _ | p0
    case none =>
      rw [upsert_pin_insert db k view hfk hfind]
      constructor
      · exact hwf.proj_id_nodup
      · exact hwf.proj_name_nodup
      · exact hwf.view_id_nodup
      · exact hwf.view_slot_nodup
      · rw [List.map_append]
        refine nodup_append_single _ _ hwf.pin_id_nodup ?_
        simpa using newRowId_not_mem (db.pins.map Pin.id)
      · rw [List.map_append]
        refine nodup_append_single _ _ hwf.pin_key_nodup ?_
        intro hm
        rcases List.mem_map.mp (by simpa using hm) with ⟨p, hp, he⟩
        have := List.find?_eq_none.mp hfind p hp
        simp [he] at this
      · exact hwf.view_fk
      · intro pn hpn
        rcases List.mem_append.mp hpn with h1 | h1
        · exact hwf.pin_fk pn h1
        · rcases List.mem_singleton.mp h1 with rfl
          exact hvex
      · exact hwf.active_fk
    case some =>
      rw [upsert_pin_update db k view p0 hfk hfind]
      constructor
      · exact hwf.proj_id_nodup
      · exact hwf.proj_name_nodup
      · exact hwf.view_id_nodup
      · exact hwf.view_slot_nodup
      · rw [upd_pin_map_id]
        exact hwf.pin_id_nodup
      · rw [upd_pin_map_key]
        exact hwf.pin_key_nodup
      · exact hwf.view_fk
      · intro pn hpn
        rcases List.mem_map.mp hpn with ⟨p, hp, he⟩
        rcases hpc : p.key == k with _ | _
        · have hq2 : pn = p := by rw [← he]; simp [hpc]
          rw [hq2]
          exact hwf.pin_fk p hp
        · have hq2 : pn = { p with view_id := view.id } := by rw [← he]; simp [hpc]
          rw [hq2]
          exact hvex
      · exact hwf.active_fk

theorem wf_clear_pin (db : DB) (k : List Char) (hwf : WF db) :
    WF (clear_pin db k).2 := by
  have hsub : (db.pins.filter (fun p => !(p.key == k))).Sublist db.pins :=
    List.filter_sublist db.pins
  constructor
  · exact hwf.proj_id_nodup
  · exact hwf.proj_name_nodup
  · exact hwf.view_id_nodup
  · exact hwf.view_slot_nodup
  · exact List.Nodup.sublist (hsub.map Pin.id) hwf.pin_id_nodup
  · exact List.Nodup.sublist (hsub.map Pin.key) hwf.pin_key_nodup
  · exact hwf.view_fk
  · intro pn hpn
    exact hwf.pin_fk pn (List.mem_of_mem_filter hpn)
  · exact hwf.active_fk

theorem find?_append_right {α : Type} (l1 l2 : List α) (p : α → Bool)
    (h : ∀ a ∈ l1, p a = false) : (l1 ++ l2).find? p = l2.find? p := by
  induction l1 with
  | nil => rfl
  | cons x xs ih =>
    simp only [List.cons_append, List.find?, h x (List.mem_cons_self x xs)]
    exact ih (fun a ha => h a (List.mem_cons_of_mem x ha))

/-- The row re-read after the commit in `add_view_to_project` is exactly the
view just inserted (its rowid is fresh, so no earlier row matches). -/
theorem get_view_by_id_fresh (db : DB) (v : View)
    (hfresh : ∀ w ∈ db.views, w.id ≠ v.id) :
    get_view_by_id { db with views := db.views ++ [v], last_insert_rowid := v.id } v.id
      = some v := by
  unfold get_view_by_id
  show (db.views ++ [v]).find? (fun w => w.id == v.id) = some v
  rw [find?_append_right db.views [v] _ (fun w hw => beq_false_of_ne (hfresh w hw))]
  simp [List.find?]

/-- Characterization of a successful `add_view_to_project` call:
`m` is a view of the project realizing the maximal position, the project row
exists, the returned view sits at `m.position + 1` under a fresh rowid, and
the committed store appends that view and re-points the project's
`active_view_id` at it. -/
theorem add_view_ok (db : DB) (project : Project) (name : List Char) (v : View)
    (h : (add_view_to_project db project name).1 = .ok v) :
    ∃ m : View, m ∈ db.views ∧ m.project_id = project.id ∧
      (∀ w ∈ db.views, w.project_id = project.id → w.position ≤ m.position) ∧
      (∃ q ∈ db.projects, q.id = project.id) ∧
      v = ⟨newRowId (db.views.map View.id), name, project.id, m.position + 1⟩ ∧
      (add_view_to_project db project name).2 =
        { db with
            projects := db.projects.map (fun p =>
              if p.id == project.id then { p with active_view_id := v.id } else p),
            views := db.views ++ [v],
            last_insert_rowid := v.id } := by
  rcases hmax : maxByPosition (db.views.filter (fun w => w.project_id == project.id))
      with _ | m
  case none =>
    exfalso
    simp [add_view_to_project, hmax] at h
  case some =>
    rcases maxByPosition_spec _ m hmax with ⟨hmem, hge⟩
    have hmemv : m ∈ db.views := List.mem_of_mem_filter hmem
    have hmpid : m.project_id = project.id := by
      have := List.of_mem_filter hmem
      exact beq_iff_eq.mp this
    have hge' : ∀ w ∈ db.views, w.project_id = project.id → w.position ≤ m.position := by
      intro w hw hwp
      exact hge w (List.mem_filter.mpr ⟨hw, beq_iff_eq.mpr hwp⟩)
    have hins : db.views.any
        (fun w => w.project_id == project.id && w.position == m.position + 1) = false := by
      rw [← Bool.not_eq_true]
      intro hc
      rcases List.any_eq_true.mp hc with ⟨w, hw, he⟩
      have he' : w.project_id = project.id ∧ w.position = m.position + 1 := by
        simpa using he
      have := hge' w hw he'.1
      rw [he'.2] at this
      omega
    have e2 := insertView_ok db name project.id (m.position + 1) hins
    rcases hfk : db.projects.any (fun p => p.id == project.id) with _ | _
    case false =>
      exfalso
      simp [add_view_to_project, hmax, e2, hfk] at h
    case true =>
      have hq : ∃ q ∈ db.projects, q.id = project.id := by
        rcases List.any_eq_true.mp hfk with ⟨q, hqm, he⟩
        exact ⟨q, hqm, beq_iff_eq.mp he⟩
      have hfresh : ∀ w ∈ db.views,
          w.id ≠ (⟨newRowId (db.views.map View.id), name, project.id, m.position + 1⟩ : View).id :=
        fun w hw => fresh_view_id db w hw
      have hget := get_view_by_id_fresh db
        ⟨newRowId (db.views.map View.id), name, project.id, m.position + 1⟩ hfresh
      have hset := set_active_ok
        { db with
            views := db.views ++ [⟨newRowId (db.views.map View.id), name, project.id, m.position + 1⟩],
            last_insert_rowid := newRowId (db.views.map View.id) }
        project ⟨newRowId (db.views.map View.id), name, project.id, m.position + 1⟩
        rfl (List.mem_append_right _ (List.mem_singleton.mpr rfl))
      have hv : v = ⟨newRowId (db.views.map View.id), name, project.id, m.position + 1⟩ := by
        simp [add_view_to_project, hmax, e2, hfk, hget, hset] at h
        exact h.symm
      refine ⟨m, hmemv, hmpid, hge', hq, hv, ?_⟩
      subst hv
      simp [add_view_to_project, hmax, e2, hfk, hget, hset]

/-- A failed `add_view_to_project` leaves the store untouched (the
transaction is rolled back before anything is committed). -/
theorem add_view_err (db : DB) (project : Project) (name : List Char) (e : RepoError)
    (h : (add_view_to_project db project name).1 = .error e) :
    (add_view_to_project db project name).2 = db := by
  rcases hmax : maxByPosition (db.views.filter (fun w => w.project_id == project.id))
      with _ | m
  case none =>
    simp [add_view_to_project, hmax]
  case some =>
    rcases maxByPosition_spec _ m hmax with ⟨hmem, hge⟩
    have hge' : ∀ w ∈ db.views, w.project_id = project.id → w.position ≤ m.position := by
      intro w hw hwp
      exact hge w (List.mem_filter.mpr ⟨hw, beq_iff_eq.mpr hwp⟩)
    have hins : db.views.any
        (fun w => w.project_id == project.id && w.position == m.position + 1) = false := by
      rw [← Bool.not_eq_true]
      intro hc
      rcases List.any_eq_true.mp hc with ⟨w, hw, he⟩
      have he' : w.project_id = project.id ∧ w.position = m.position + 1 := by
        simpa using he
      have := hge' w hw he'.1
      rw [he'.2] at this
      omega
    have e2 := insertView_ok db name project.id (m.position + 1) hins
    rcases hfk : db.projects.any (fun p => p.id == project.id) with _ | _
    case false =>
      simp [add_view_to_project, hmax, e2, hfk]
    case true =>
      exfalso
      have hfresh : ∀ w ∈ db.views,
          w.id ≠ (⟨newRowId (db.views.map View.id), name, project.id, m.position + 1⟩ : View).id :=
        fun w hw => fresh_view_id db w hw
      have hget := get_view_by_id_fresh db
        ⟨newRowId (db.views.map View.id), name, project.id, m.position + 1⟩ hfresh
      have hset := set_active_ok
        { db with
            views := db.views ++ [⟨newRowId (db.views.map View.id), name, project.id, m.position + 1⟩],
            last_insert_rowid := newRowId (db.views.map View.id) }
        project ⟨newRowId (db.views.map View.id), name, project.id, m.position + 1⟩
        rfl (List.mem_append_right _ (List.mem_singleton.mpr rfl))
      simp [add_view_to_project, hmax, e2, hfk, hget, hset] at h

theorem wf_add_view (db : DB) (project : Project) (name : List Char) (hwf : WF db) :
    WF (add_view_to_project db project name).2 := by
  rcases hr : (add_view_to_project db project name).1 with e | v
  · rw [add_view_err db project name e hr]
    exact hwf
  · rcases add_view_ok db project name v hr with ⟨m, hmemv, hmpid, hge', hq, hv, hdb⟩
    rw [hdb]
    constructor
    · rw [upd_active_map_id]
      exact hwf.proj_id_nodup
    · rw [upd_active_map_name]
      exact hwf.proj_name_nodup
    · rw [List.map_append]
      refine nodup_append_single _ _ hwf.view_id_nodup ?_
      rw [hv]
      simpa using newRowId_not_mem (db.views.map View.id)
    · rw [List.map_append]
      refine nodup_append_single _ _ hwf.view_slot_nodup ?_
      rw [hv]
      intro hm
      simp only [List.mem_map, Prod.mk.injEq] at hm
      rcases hm with ⟨w, hw, h1, h2⟩
      have := hge' w hw h1
      rw [h2] at this
      omega
    · exact hwf.pin_id_nodup
    · exact hwf.pin_key_nodup
    · intro w hw
      rcases List.mem_append.mp hw with h1 | h1
      · rcases hwf.view_fk w h1 with ⟨p, hp, he⟩
        refine ⟨_, List.mem_map_of_mem _ hp, ?_⟩
        rw [upd_active_id]
        exact he
      · rcases List.mem_singleton.mp h1 with rfl
        rcases hq with ⟨q, hqm, hqe⟩
        refine ⟨_, List.mem_map_of_mem _ hqm, ?_⟩
        rw [upd_active_id, hqe, hv]
    · intro pn hpn
      rcases hwf.pin_fk pn hpn with ⟨w, hw, he⟩
      exact ⟨w, List.mem_append_left _ hw, he⟩
    · intro q hq2
      rcases List.mem_map.mp hq2 with ⟨p, hp, he⟩
      rcases hpc : p.id == project.id with _ | _
      · have hq3 : q = p := by rw [← he]; simp [hpc]
        rw [hq3]
        rcases hwf.active_fk p hp with ⟨w, hw, he1, he2⟩
        exact ⟨w, List.mem_append_left _ hw, he1, he2⟩
      · have hq3 : q = { p with active_view_id := v.id } := by rw [← he]; simp [hpc]
        rw [hq3]
        refine ⟨v, List.mem_append_right _ (List.mem_singleton.mpr rfl), rfl, ?_⟩
        rw [hv]
        simpa using (beq_iff_eq.mp hpc).symm

theorem find?_append_single {α : Type} (l : List α) (a : α) (p : α → Bool)
    (h : ∀ b ∈ l, p b = false) (ha : p a = true) :
    (l ++ [a]).find? p = some a := by
  rw [find?_append_right l [a] p h]
  simp [List.find?, ha]

/-- Committed stores reachable from a fresh database through the repository's
mutating operations.  The `view` argument of `set_active_view_for_project`
ranges over rows of the current store: the Rust entity structs have private
fields, so every `View` value a caller can hold was read out of the store,
and view rows are never updated or deleted once inserted. -/
inductive Reachable : DB → Prop where
  | init : Reachable emptyDB
  | addProject (db : DB) (name : List Char) :
      Reachable db → Reachable (add_project db name).2
  | addView (db : DB) (project : Project) (name : List Char) :
      Reachable db → Reachable (add_view_to_project db project name).2
  | setActive (db : DB) (project : Project) (view : View) :
      Reachable db → view ∈ db.views →
      Reachable (set_active_view_for_project db project view).2
  | upsertPin (db : DB) (k : List Char) (view : View) :
      Reachable db → Reachable (upsert_pin db k view).2
  | clearPin (db : DB) (k : List Char) :
      Reachable db → Reachable (clear_pin db k).2

/-- Every reachable committed store satisfies all schema constraints and the
active-view invariant. -/
theorem reachable_wf (db : DB) (h : Reachable db) : WF db := by
  induction h with
  | init => exact wf_empty
  | addProject db name _ ih => exact wf_add_project db name ih
  | addView db project name _ ih => exact wf_add_view db project name ih
  | setActive db project view _ hview ih => exact wf_set_active db project view ih hview
  | upsertPin db k view _ ih => exact wf_upsert_pin db k view ih
  | clearPin db k _ ih => exact wf_clear_pin db k ih

/-!  The claims. -/

/-- Conclusion of claim C1 at a given store, project name and returned id:
exactly one project row and one view row are appended, wired to each other,
and the new project's active view resolves to the default view whose display
name is the project name, `'#'`, then `"view"`. -/
def AddProjectCreatesDefaultView (db : DB) (name : List Char) (pid : Int) : Prop :=
  ∃ P : Project, ∃ V : View,
    (add_project db name).2.projects = db.projects ++ [P] ∧
    (add_project db name).2.views = db.views ++ [V] ∧
    (add_project db name).2.pins = db.pins ∧
    P.name = name ∧ P.id = pid ∧ P.active_view_id = V.id ∧
    V.name = default_view_name ∧ V.project_id = P.id ∧ V.position = 0 ∧
    get_active_view_for_project (add_project db name).2 P = some V ∧
    get_window_manager_display_name (add_project db name).2 V
      = some (name ++ '#' :: default_view_name)

/-- C1: for every name, a successful `AddProject(name)` creates exactly one
new project row named `name` together with exactly one new view named with
the default label `"view"` at position 0 owned by that project, sets the
project's `active_view_id` to that view's id, and returns the new project's
id; consequently `GetActiveViewForProject` on the new project returns that
default view and its encoded display name is `"<name>#view"`. -/
theorem C1_add_project_creates_default_view (db : DB) (name : List Char) (pid : Int)
    (h : (add_project db name).1 = .ok pid) :
    AddProjectCreatesDefaultView db name pid := by
  rcases add_project_ok db name pid h with ⟨hpid, hnames, hslots, hdb⟩
  subst hpid
  refine ⟨⟨newRowId (db.views.map View.id), newRowId (db.projects.map Project.id), name⟩,
          ⟨newRowId (db.views.map View.id), default_view_name,
            newRowId (db.projects.map Project.id), 0⟩,
          ?_, ?_, ?_, rfl, rfl, rfl, rfl, rfl, rfl, ?_, ?_⟩
  · rw [hdb]
  · rw [hdb]
  · rw [hdb]
  · rw [hdb]
    unfold get_active_view_for_project
    refine find?_append_single _ _ _ (fun w hw => ?_) (by simp)
    exact beq_false_of_ne (fresh_view_id db w hw)
  · rw [hdb]
    unfold get_window_manager_display_name
    rw [find?_append_single _ _ _ (fun q hq => ?_) (by simp)]
    · rfl
    · exact beq_false_of_ne (fresh_project_id db q hq)

/-- Witness for C1 on a fresh store: `AddProject("a")` succeeds with id 1 and
the characterization holds. -/
theorem C1_witness :
    (add_project emptyDB ['a']).1 = .ok 1 ∧
    AddProjectCreatesDefaultView emptyDB ['a'] 1 :=
  ⟨rfl, C1_add_project_creates_default_view emptyDB ['a'] 1 rfl⟩

/-- Conclusion of claim C2: the duplicate insert is rejected with the
constraint error, the store is unchanged, and in particular all three row
counts are unchanged. -/
def AddProjectDuplicateRejected (db : DB) (name : List Char) : Prop :=
  (add_project db name).1 = .error .constraintViolation ∧
  (add_project db name).2 = db ∧
  (add_project db name).2.projects.length = db.projects.length ∧
  (add_project db name).2.views.length = db.views.length ∧
  (add_project db name).2.pins.length = db.pins.length

/-- C2: for every name that already exists as a project name,
`AddProject(name)` fails with the duplicate/constraint error and is atomic:
the failed call adds no rows to any table and leaves no partial project
behind (the committed store is exactly the old one). -/
theorem C2_add_project_duplicate_atomic (db : DB) (name : List Char)
    (hdup : ∃ p ∈ db.projects, p.name = name) :
    AddProjectDuplicateRejected db name := by
  rcases hdup with ⟨p, hp, he⟩
  have h : db.projects.any (fun q => q.name == name) = true :=
    List.any_eq_true.mpr ⟨p, hp, beq_iff_eq.mpr he⟩
  have hrun : add_project db name = (.error .constraintViolation, db) := by
    simp [add_project, insertProject, h]
  refine ⟨?_, ?_, ?_, ?_, ?_⟩ <;> rw [hrun]

/-- Witness for C2: re-adding the project name `"a"` to a store that already
holds it is rejected and changes nothing. -/
theorem C2_witness :
    (∃ p ∈ (add_project emptyDB ['a']).2.projects, p.name = ['a']) ∧
    AddProjectDuplicateRejected (add_project emptyDB ['a']).2 ['a'] :=
  ⟨by decide, C2_add_project_duplicate_atomic (add_project emptyDB ['a']).2 ['a'] (by decide)⟩

/-- C3: starting from a freshly initialized empty store, every committed
state satisfies the active-view invariant: each project row owns at least one
view row, and its `active_view_id` refers to an existing view whose
`project_id` equals the project's id.  All mutating operations (`AddProject`,
`AddViewToProject`, `SetActiveViewForProject`, the pin operations) preserve
it, and the query operations are read-only by construction. -/
theorem C3_active_view_invariant (db : DB) (h : Reachable db) :
    ∀ p ∈ db.projects,
      (∃ v ∈ db.views, v.project_id = p.id) ∧
      (∃ v ∈ db.views, v.id = p.active_view_id ∧ v.project_id = p.id) := by
  intro p hp
  rcases (reachable_wf db h).active_fk p hp with ⟨v, hv, he1, he2⟩
  exact ⟨⟨v, hv, he2⟩, ⟨v, hv, he1, he2⟩⟩

/-- Witness for C3: the invariant holds for the concrete project row of the
reachable store obtained by one `AddProject`. -/
theorem C3_witness :
    (∃ v ∈ (add_project emptyDB ['a']).2.views,
      v.project_id = (⟨1, 1, ['a']⟩ : Project).id) ∧
    (∃ v ∈ (add_project emptyDB ['a']).2.views,
      v.id = (⟨1, 1, ['a']⟩ : Project).active_view_id ∧
      v.project_id = (⟨1, 1, ['a']⟩ : Project).id) :=
  C3_active_view_invariant (add_project emptyDB ['a']).2
    (Reachable.addProject emptyDB ['a'] Reachable.init) ⟨1, 1, ['a']⟩ (by decide)

/-- C7: for every project and every view whose `project_id` differs from the
project's id, `SetActiveViewForProject` fails with the view-not-in-project
error and performs no write: the whole store, in particular the project's
`active_view_id`, is unchanged. -/
theorem C7_set_active_wrong_project (db : DB) (project : Project) (view : View)
    (h : view.project_id ≠ project.id) :
    set_active_view_for_project db project view = (.error .viewNotInProject, db) :=
  set_active_mismatch db project view h

/-- Witness for C7 at a concrete mismatched pair. -/
theorem C7_witness :
    ((⟨1, ['v'], 2, 0⟩ : View).project_id ≠ (⟨1, 1, ['p']⟩ : Project).id) ∧
    set_active_view_for_project emptyDB ⟨1, 1, ['p']⟩ ⟨1, ['v'], 2, 0⟩
      = (.error .viewNotInProject, emptyDB) :=
  ⟨by decide, C7_set_active_wrong_project emptyDB ⟨1, 1, ['p']⟩ ⟨1, ['v'], 2, 0⟩ (by decide)⟩

/-- C9: for every input whose number of `'#'` characters is not exactly one
(zero, or more than one), both decoding operations fail with the
malformed-display-name result (`None`) instead of returning any row. -/
theorem C9_decode_malformed (db : DB) (s : List Char) (h : s.count '#' ≠ 1) :
    get_view_from_window_manager_display_name db s = none ∧
    get_project_from_window_manager_display_name db s = none := by
  have hlen : (splitHash s).length ≠ 2 := by
    rw [splitHash_length]
    omega
  constructor
  · unfold get_view_from_window_manager_display_name
    rcases hs : splitHash s with _ | ⟨a, _ | ⟨b, _ | ⟨c, rest⟩⟩⟩
    · exact absurd hs (splitHash_ne_nil s)
    · rfl
    · rw [hs] at hlen
      simp at hlen
    · rfl
  · unfold get_project_from_window_manager_display_name
    rcases hs : splitHash s with _ | ⟨a, _ | ⟨b, _ | ⟨c, rest⟩⟩⟩
    · exact absurd hs (splitHash_ne_nil s)
    · rfl
    · rw [hs] at hlen
      simp at hlen
    · rfl

/-- Witness for C9 on the separator-free name `"ab"` and the
doubly-separated name `"a#b#c"`. -/
theorem C9_witness :
    ((['a', 'b'] : List Char).count '#' ≠ 1 ∧
      get_view_from_window_manager_display_name emptyDB ['a', 'b'] = none ∧
      get_project_from_window_manager_display_name emptyDB ['a', 'b'] = none) ∧
    ((['a', '#', 'b', '#', 'c'] : List Char).count '#' ≠ 1 ∧
      get_view_from_window_manager_display_name emptyDB ['a', '#', 'b', '#', 'c'] = none ∧
      get_project_from_window_manager_display_name emptyDB ['a', '#', 'b', '#', 'c'] = none) :=
  ⟨⟨by decide, C9_decode_malformed emptyDB ['a', 'b'] (by decide)⟩,
   ⟨by decide, C9_decode_malformed emptyDB ['a', '#', 'b', '#', 'c'] (by decide)⟩⟩

/-- Conclusion of claim C4 for a project whose active view is `active`:
`GetNextViewForProject` returns a view of the project that either has the
smallest position strictly above the active one, or — when no position lies
above — the smallest position overall (the cyclic wrap); symmetrically for
`GetPrevViewForProject` with largest positions below.  Both operations
receive only the store and return only a view: they are read-only by type. -/
def NextPrevCyclic (db : DB) (project : Project) (active : View) : Prop :=
  (∃ v, get_next_view_for_project db project = .ok v ∧ v ∈ db.views ∧
    v.project_id = project.id ∧
    ((active.position < v.position ∧
        ∀ w ∈ db.views, w.project_id = project.id → active.position < w.position →
          v.position ≤ w.position) ∨
     ((∀ w ∈ db.views, w.project_id = project.id → w.position ≤ active.position) ∧
        ∀ w ∈ db.views, w.project_id = project.id → v.position ≤ w.position))) ∧
  (∃ v, get_prev_view_for_project db project = .ok v ∧ v ∈ db.views ∧
    v.project_id = project.id ∧
    ((v.position < active.position ∧
        ∀ w ∈ db.views, w.project_id = project.id → w.position < active.position →
          w.position ≤ v.position) ∨
     ((∀ w ∈ db.views, w.project_id = project.id → active.position ≤ w.position) ∧
        ∀ w ∈ db.views, w.project_id = project.id → w.position ≤ v.position)))

/-- C4: for every project whose active view sits at position `p`,
`GetNextViewForProject` returns the view of the same project with the
smallest position strictly greater than `p`, or, when no such view exists,
the view with the smallest position overall; symmetrically
`GetPrevViewForProject` returns the view with the largest position strictly
less than `p`, or, when none exists, the view with the largest position
overall; both are read-only. -/
theorem C4_next_prev_cyclic (db : DB) (project : Project) (active : View)
    (hact : get_active_view_for_project db project = some active)
    (hproj : active.project_id = project.id) :
    NextPrevCyclic db project active := by
  have hactmem : active ∈ db.views := List.mem_of_find?_eq_some hact
  have hactf2 : active ∈ db.views.filter (fun v => v.project_id == project.id) :=
    List.mem_filter.mpr ⟨hactmem, beq_iff_eq.mpr hproj⟩
  constructor
  · rcases hmin : minByPosition (db.views.filter (fun v =>
        v.project_id == project.id && decide (active.position < v.position))) with _ | v
    · have hnogt : ∀ w ∈ db.views, w.project_id = project.id →
          w.position ≤ active.position := by
        intro w hw hwp
        by_contra hlt
        push_neg at hlt
        have hmemf : w ∈ db.views.filter (fun v =>
            v.project_id == project.id && decide (active.position < v.position)) :=
          List.mem_filter.mpr ⟨hw, by simp [hwp, hlt]⟩
        rw [(minByPosition_eq_none _).mp hmin] at hmemf
        cases hmemf
      rcases hmin2 : minByPosition (db.views.filter
          (fun v => v.project_id == project.id)) with _ | v
      · exfalso
        have := hactf2
        rw [(minByPosition_eq_none _).mp hmin2] at this
        cases this
      · rcases minByPosition_spec _ v hmin2 with ⟨hvm, hvle⟩
        have hvp : v.project_id = project.id := by
          simpa using List.of_mem_filter hvm
        refine ⟨v, ?_, List.mem_of_mem_filter hvm, hvp, Or.inr ⟨hnogt, ?_⟩⟩
        · unfold get_next_view_for_project
          rw [hact]
          simp only [hmin, hmin2]
        · intro w hw hwp
          exact hvle w (List.mem_filter.mpr ⟨hw, beq_iff_eq.mpr hwp⟩)
    · rcases minByPosition_spec _ v hmin with ⟨hvm, hvle⟩
      have hpred : v.project_id = project.id ∧ active.position < v.position := by
        have := List.of_mem_filter hvm
        simpa using this
      refine ⟨v, ?_, List.mem_of_mem_filter hvm, hpred.1, Or.inl ⟨hpred.2, ?_⟩⟩
      · unfold get_next_view_for_project
        rw [hact]
        simp only [hmin]
      · intro w hw hwp hgt
        exact hvle w (List.mem_filter.mpr ⟨hw, by simp [hwp, hgt]⟩)
  · rcases hmax : maxByPosition (db.views.filter (fun v =>
        v.project_id == project.id && decide (v.position < active.position))) with _ | v
    · have hnolt : ∀ w ∈ db.views, w.project_id = project.id →
          active.position ≤ w.position := by
        intro w hw hwp
        by_contra hlt
        push_neg at hlt
        have hmemf : w ∈ db.views.filter (fun v =>
            v.project_id == project.id && decide (v.position < active.position)) :=
          List.mem_filter.mpr ⟨hw, by simp [hwp, hlt]⟩
        rw [(maxByPosition_eq_none _).mp hmax] at hmemf
        cases hmemf
      rcases hmax2 : maxByPosition (db.views.filter
          (fun v => v.project_id == project.id)) with _ | v
      · exfalso
        have := hactf2
        rw [(maxByPosition_eq_none _).mp hmax2] at this
        cases this
      · rcases maxByPosition_spec _ v hmax2 with ⟨hvm, hvge⟩
        have hvp : v.project_id = project.id := by
          simpa using List.of_mem_filter hvm
        refine ⟨v, ?_, List.mem_of_mem_filter hvm, hvp, Or.inr ⟨hnolt, ?_⟩⟩
        · unfold get_prev_view_for_project
          rw [hact]
          simp only [hmax, hmax2]
        · intro w hw hwp
          exact hvge w (List.mem_filter.mpr ⟨hw, beq_iff_eq.mpr hwp⟩)
    · rcases maxByPosition_spec _ v hmax with ⟨hvm, hvge⟩
      have hpred : v.project_id = project.id ∧ v.position < active.position := by
        have := List.of_mem_filter hvm
        simpa using this
      refine ⟨v, ?_, List.mem_of_mem_filter hvm, hpred.1, Or.inl ⟨hpred.2, ?_⟩⟩
      · unfold get_prev_view_for_project
        rw [hact]
        simp only [hmax]
      · intro w hw hwp hlt
        exact hvge w (List.mem_filter.mpr ⟨hw, by simp [hwp, hlt]⟩)

/-- Witness for C4 on a store whose project `"p"` has views at positions 0
and 1 with the active view at position 1: next wraps to position 0, prev
steps down to position 0. -/
theorem C4_witness :
    get_active_view_for_project
        (add_view_to_project (add_project emptyDB ['p']).2 ⟨1, 1, ['p']⟩ ['b']).2
        ⟨2, 1, ['p']⟩ = some ⟨2, ['b'], 1, 1⟩ ∧
    NextPrevCyclic (add_view_to_project (add_project emptyDB ['p']).2 ⟨1, 1, ['p']⟩ ['b']).2
      ⟨2, 1, ['p']⟩ ⟨2, ['b'], 1, 1⟩ :=
  ⟨by decide,
   C4_next_prev_cyclic (add_view_to_project (add_project emptyDB ['p']).2 ⟨1, 1, ['p']⟩ ['b']).2
     ⟨2, 1, ['p']⟩ ⟨2, ['b'], 1, 1⟩ (by decide) (by decide)⟩

/-- In a store where some project row carries the given id, the project has a
view (by the active-view invariant), so `add_view_to_project` runs to
completion and returns a view. -/
theorem add_view_succeeds (db : DB) (project : Project) (name : List Char)
    (hwf : WF db) (hq : ∃ q ∈ db.projects, q.id = project.id) :
    ∃ v, (add_view_to_project db project name).1 = .ok v := by
  rcases hq with ⟨q, hqm, hqe⟩
  rcases hwf.active_fk q hqm with ⟨vq, hvq, _, hvqp⟩
  have hvqf : vq ∈ db.views.filter (fun w => w.project_id == project.id) :=
    List.mem_filter.mpr ⟨hvq, beq_iff_eq.mpr (hvqp.trans hqe)⟩
  rcases hmax : maxByPosition (db.views.filter (fun w => w.project_id == project.id))
      with _ | m
  case none =>
    exfalso
    rw [(maxByPosition_eq_none _).mp hmax] at hvqf
    cases hvqf
  case some =>
    rcases maxByPosition_spec _ m hmax with ⟨hmem, hge⟩
    have hge' : ∀ w ∈ db.views, w.project_id = project.id → w.position ≤ m.position := by
      intro w hw hwp
      exact hge w (List.mem_filter.mpr ⟨hw, beq_iff_eq.mpr hwp⟩)
    have hins : db.views.any
        (fun w => w.project_id == project.id && w.position == m.position + 1) = false := by
      rw [← Bool.not_eq_true]
      intro hc
      rcases List.any_eq_true.mp hc with ⟨w, hw, he⟩
      have he' : w.project_id = project.id ∧ w.position = m.position + 1 := by
        simpa using he
      have := hge' w hw he'.1
      rw [he'.2] at this
      omega
    have e2 := insertView_ok db name project.id (m.position + 1) hins
    have hfk : db.projects.any (fun p => p.id == project.id) = true :=
      List.any_eq_true.mpr ⟨q, hqm, beq_iff_eq.mpr hqe⟩
    have hfresh : ∀ w ∈ db.views,
        w.id ≠ (⟨newRowId (db.views.map View.id), name, project.id, m.position + 1⟩ : View).id :=
      fun w hw => fresh_view_id db w hw
    have hget := get_view_by_id_fresh db
      ⟨newRowId (db.views.map View.id), name, project.id, m.position + 1⟩ hfresh
    have hset := set_active_ok
      { db with
          views := db.views ++ [⟨newRowId (db.views.map View.id), name, project.id, m.position + 1⟩],
          last_insert_rowid := newRowId (db.views.map View.id) }
      project ⟨newRowId (db.views.map View.id), name, project.id, m.position + 1⟩
      rfl (List.mem_append_right _ (List.mem_singleton.mpr rfl))
    refine ⟨⟨newRowId (db.views.map View.id), name, project.id, m.position + 1⟩, ?_⟩
    simp [add_view_to_project, hmax, e2, hfk, hget, hset]

/-- Conclusion of claim C5: when the project row exists,
`AddViewToProject(project, name)` succeeds, appends exactly one view at the
maximal existing position plus one, re-points the project's active view at
it, and returns it; when the project row does not exist, the call fails and
leaves the store unchanged. -/
def AddViewAppendsAndActivates (db : DB) (project : Project) (name : List Char) : Prop :=
  ((∃ q ∈ db.projects, q.id = project.id) →
    ∃ v : View, ∃ M : Int,
      (add_view_to_project db project name).1 = .ok v ∧
      (∃ w ∈ db.views, w.project_id = project.id ∧ w.position = M) ∧
      (∀ w ∈ db.views, w.project_id = project.id → w.position ≤ M) ∧
      v.name = name ∧ v.project_id = project.id ∧ v.position = M + 1 ∧
      (add_view_to_project db project name).2.views = db.views ++ [v] ∧
      (add_view_to_project db project name).2.pins = db.pins ∧
      (∀ q ∈ (add_view_to_project db project name).2.projects,
        q.id = project.id → q.active_view_id = v.id)) ∧
  ((∀ q ∈ db.projects, q.id ≠ project.id) →
    (add_view_to_project db project name).1 = .error .nullMaxPosition ∧
    (add_view_to_project db project name).2 = db)

/-- C5: for every existing project and view name, `AddViewToProject` inserts
a new view at position `max(existing positions in this project) + 1`, then
sets that view as the project's active view and returns it; when the project
row no longer exists the call fails (the empty-project `MAX` read aborts the
transaction) and the store is unchanged.  In a well-formed store an existing
project always owns at least one view, so the position-0 branch for a
view-less project never arises. -/
theorem C5_add_view_appends (db : DB) (project : Project) (name : List Char)
    (hwf : WF db) : AddViewAppendsAndActivates db project name := by
  constructor
  · intro hq
    rcases add_view_succeeds db project name hwf hq with ⟨v, hr⟩
    rcases add_view_ok db project name v hr with ⟨m, hmemv, hmpid, hge', _, hv, hdb⟩
    refine ⟨v, m.position, hr, ⟨m, hmemv, hmpid, rfl⟩, hge', ?_, ?_, ?_, ?_, ?_, ?_⟩
    · rw [hv]
    · rw [hv]
    · rw [hv]
    · rw [hdb]
    · rw [hdb]
    · rw [hdb]
      intro q hq2 hqid
      rcases List.mem_map.mp hq2 with ⟨p, hp, he⟩
      rcases hpc : p.id == project.id with _ | _
      · exfalso
        have hq3 : q = p := by rw [← he]; simp [hpc]
        rw [hq3] at hqid
        simp [hqid] at hpc
      · have hq3 : q = { p with active_view_id := v.id } := by rw [← he]; simp [hpc]
        rw [hq3]
  · intro hnone
    have hfil : db.views.filter (fun w => w.project_id == project.id) = [] := by
      rw [List.filter_eq_nil_iff]
      intro w hw
      rcases hwf.view_fk w hw with ⟨p, hp, he⟩
      have hne := hnone p hp
      rw [he] at hne
      simpa using hne
    have hmax : maxByPosition (db.views.filter (fun w => w.project_id == project.id)) = none :=
      (maxByPosition_eq_none _).mpr hfil
    constructor
    · simp [add_view_to_project, hmax]
    · simp [add_view_to_project, hmax]

/-- Witness for C5 on a store with one project (id 1) holding one view:
the existing-project branch applies, and a mismatching id 2 exercises the
missing-project branch. -/
theorem C5_witness :
    AddViewAppendsAndActivates (add_project emptyDB ['p']).2 ⟨1, 1, ['p']⟩ ['b'] ∧
    AddViewAppendsAndActivates (add_project emptyDB ['p']).2 ⟨1, 2, ['q']⟩ ['b'] :=
  ⟨C5_add_view_appends (add_project emptyDB ['p']).2 ⟨1, 1, ['p']⟩ ['b']
      (by constructor <;> decide),
   C5_add_view_appends (add_project emptyDB ['p']).2 ⟨1, 2, ['q']⟩ ['b']
      (by constructor <;> decide)⟩

/-- A reachable store in which project `"p"` holds two views that both carry
the default name `"view"` (nothing stops `AddViewToProject` from reusing a
name already present in the project). -/
def dupViewDB : DB :=
  (add_view_to_project (add_project emptyDB ['p']).2 ⟨1, 1, ['p']⟩ default_view_name).2

/-- C6 counterexample: in the reachable store `dupViewDB`, the second view
named `"view"` (row id 2) of project `"p"` satisfies every hypothesis of the
claim — its name and the project's name contain no `'#'` — yet decoding its
encoded display name `"p#view"` returns the FIRST view row named `"view"`
(row id 1), not the view we encoded: the round-trip fails because view names
are not unique within a project. -/
theorem C6_counterexample :
    Reachable dupViewDB ∧
    (⟨2, 1, ['p']⟩ : Project) ∈ dupViewDB.projects ∧
    (⟨2, default_view_name, 1, 1⟩ : View) ∈ dupViewDB.views ∧
    (⟨2, default_view_name, 1, 1⟩ : View).project_id = (⟨2, 1, ['p']⟩ : Project).id ∧
    '#' ∉ (⟨2, 1, ['p']⟩ : Project).name ∧
    '#' ∉ (⟨2, default_view_name, 1, 1⟩ : View).name ∧
    get_window_manager_display_name dupViewDB ⟨2, default_view_name, 1, 1⟩
      = some ['p', '#', 'v', 'i', 'e', 'w'] ∧
    get_view_from_window_manager_display_name dupViewDB ['p', '#', 'v', 'i', 'e', 'w']
      = some ⟨1, default_view_name, 1, 0⟩ ∧
    (⟨1, default_view_name, 1, 0⟩ : View) ≠ (⟨2, default_view_name, 1, 1⟩ : View) :=
  ⟨Reachable.addView (add_project emptyDB ['p']).2 ⟨1, 1, ['p']⟩ default_view_name
      (Reachable.addProject emptyDB ['p'] Reachable.init),
   by decide⟩

/-- C6 (amended): for every project `P` whose name contains no `'#'` and
every view `V` of `P` whose name contains no `'#'` and is not shared with any
other view of `P`, encoding produces `"<P.name>#<V.name>"` and both decoding
operations round-trip to `V` and `P` respectively. -/
theorem C6_display_name_roundtrip (db : DB) (P : Project) (V : View)
    (hwf : WF db) (hP : P ∈ db.projects) (hV : V ∈ db.views)
    (hpv : V.project_id = P.id) (hnpP : '#' ∉ P.name) (hnpV : '#' ∉ V.name)
    (huniq : ∀ W ∈ db.views, W.project_id = P.id → W.name = V.name → W = V) :
    get_window_manager_display_name db V = some (P.name ++ '#' :: V.name) ∧
    get_view_from_window_manager_display_name db (P.name ++ '#' :: V.name) = some V ∧
    get_project_from_window_manager_display_name db (P.name ++ '#' :: V.name) = some P := by
  have hsplit : splitHash (P.name ++ '#' :: V.name) = [P.name, V.name] := by
    rw [splitHash_append P.name V.name hnpP, splitHash_no_sep V.name hnpV]
  have hfindP : db.projects.find? (fun p => p.name == P.name) = some P :=
    find_unique db.projects Project.name hwf.proj_name_nodup P hP
  refine ⟨?_, ?_, ?_⟩
  · unfold get_window_manager_display_name
    rw [hpv, find_unique db.projects Project.id hwf.proj_id_nodup P hP]
    rfl
  · unfold get_view_from_window_manager_display_name
    rw [hsplit]
    simp only [hfindP]
    refine find_of_pred_unique db.views _ V hV (by simp [hpv]) ?_
    intro b hb hbp
    have hb' : b.project_id = P.id ∧ b.name = V.name := by simpa using hbp
    exact huniq b hb hb'.1 hb'.2
  · unfold get_project_from_window_manager_display_name
    rw [hsplit]
    exact hfindP

/-- Witness for the amended C6 on a store with a single project `"p"` and its
unique default view. -/
theorem C6_witness :
    get_window_manager_display_name (add_project emptyDB ['p']).2 ⟨1, default_view_name, 1, 0⟩
      = some (['p'] ++ '#' :: default_view_name) ∧
    get_view_from_window_manager_display_name (add_project emptyDB ['p']).2
      (['p'] ++ '#' :: default_view_name) = some ⟨1, default_view_name, 1, 0⟩ ∧
    get_project_from_window_manager_display_name (add_project emptyDB ['p']).2
      (['p'] ++ '#' :: default_view_name) = some ⟨1, 1, ['p']⟩ :=
  C6_display_name_roundtrip (add_project emptyDB ['p']).2 ⟨1, 1, ['p']⟩
    ⟨1, default_view_name, 1, 0⟩ (by constructor <;> decide) (by decide) (by decide)
    (by decide) (by decide) (by decide) (by decide)

theorem filter_key_map_upd (l : List Pin) (k : List Char) (vid : Int) :
    (l.map (fun p => if p.key == k then { p with view_id := vid } else p)).filter
        (fun p => p.key == k)
      = (l.filter (fun p => p.key == k)).map
          (fun p => if p.key == k then { p with view_id := vid } else p) := by
  induction l with
  | nil => rfl
  | cons x xs ih =>
    by_cases hx : (x.key == k) = true
    · rw [List.map_cons, if_pos hx, List.filter_cons, List.filter_cons, if_pos hx,
          if_pos (show (({ x with view_id := vid } : Pin).key == k) = true from hx),
          List.map_cons, if_pos hx, ih]
    · rw [List.map_cons, if_neg hx, List.filter_cons, List.filter_cons, if_neg hx,
          if_neg hx, ih]

theorem filter_single_of_key_nodup (l : List Pin) (p0 : Pin)
    (hnd : (l.map Pin.key).Nodup) (hp : p0 ∈ l) :
    l.filter (fun p => p.key == p0.key) = [p0] := by
  induction l with
  | nil => cases hp
  | cons x xs ih =>
    rcases List.nodup_cons.mp hnd with ⟨hxk, hxs⟩
    rcases List.mem_cons.mp hp with h | h
    · subst h
      have hfil : xs.filter (fun p => p.key == p0.key) = [] := by
        rw [List.filter_eq_nil_iff]
        intro q hq hpred
        refine hxk ?_
        rw [← beq_iff_eq.mp hpred]
        exact List.mem_map_of_mem Pin.key hq
      simp [List.filter, hfil]
    · have hxne : x.key ≠ p0.key := by
        intro he
        exact hxk (he ▸ List.mem_map_of_mem Pin.key h)
      simp [List.filter, beq_false_of_ne hxne, ih hxs h]

/-- After one `upsert_pin` with a genuine view row on a well-formed store:
the call succeeds, `projects` and `views` are untouched, well-formedness is
preserved, and exactly one pin row carries the key — targeting the given
view. -/
theorem upsert_pin_post (db : DB) (k : List Char) (view : View)
    (hwf : WF db) (hview : view ∈ db.views) :
    ∃ i : Int, (upsert_pin db k view).1 = .ok i ∧
      (upsert_pin db k view).2.views = db.views ∧
      (upsert_pin db k view).2.projects = db.projects ∧
      WF (upsert_pin db k view).2 ∧
      ∃ pin : Pin, pin.key = k ∧ pin.view_id = view.id ∧
        (upsert_pin db k view).2.pins.filter (fun p => p.key == k) = [pin] := by
  have hfk : db.views.any (fun v => v.id == view.id) = true :=
    List.any_eq_true.mpr ⟨view, hview, by simp⟩
  have hwf2 := wf_upsert_pin db k view hwf
  rcases hfind : db.pins.find? (fun p => p.key == k) with _ | p0
  case none =>
    have e := upsert_pin_insert db k view hfk hfind
    rw [e] at hwf2
    refine ⟨newRowId (db.pins.map Pin.id), ?_, ?_, ?_, ?_,
      ⟨newRowId (db.pins.map Pin.id), k, view.id⟩, rfl, rfl, ?_⟩ <;> rw [e]
    · exact hwf2
    · rw [List.filter_append]
      have hfil : db.pins.filter (fun p => p.key == k) = [] := by
        rw [List.filter_eq_nil_iff]
        intro q hq
        simpa using List.find?_eq_none.mp hfind q hq
      simp [hfil, List.filter]
  case some =>
    have e := upsert_pin_update db k view p0 hfk hfind
    rw [e] at hwf2
    have hp0 : p0 ∈ db.pins := List.mem_of_find?_eq_some hfind
    have hp0k : p0.key = k := by
      have hb := List.find?_some hfind
      exact beq_iff_eq.mp hb
    refine ⟨db.last_insert_rowid, ?_, ?_, ?_, ?_,
      ⟨p0.id, k, view.id⟩, rfl, rfl, ?_⟩ <;> rw [e]
    · exact hwf2
    · rw [filter_key_map_upd]
      rw [← hp0k, filter_single_of_key_nodup db.pins p0 hwf.pin_key_nodup hp0]
      simp [hp0k]

/-- Conclusion of claim C8: both upserts succeed, afterwards exactly one pin
row carries key `k` and it targets `v2`, and `GetViewForPinKey(k)` returns
`v2`. -/
def PinUpsertLastWriteWins (db : DB) (k : List Char) (v1 v2 : View) : Prop :=
  ∃ i1 i2 : Int, ∃ pin : Pin,
    (upsert_pin db k v1).1 = .ok i1 ∧
    (upsert_pin (upsert_pin db k v1).2 k v2).1 = .ok i2 ∧
    (upsert_pin (upsert_pin db k v1).2 k v2).2.pins.filter (fun p => p.key == k) = [pin] ∧
    pin.view_id = v2.id ∧
    get_view_for_pin_key (upsert_pin (upsert_pin db k v1).2 k v2).2 k = some v2

/-- C8: for every key `k` and view rows `v1`, `v2`, calling `SetPin(k, v1)`
then `SetPin(k, v2)` leaves exactly one pin row with key `k`, targeting `v2`
(upsert, last write wins), and a subsequent `GetViewForPinKey(k)` returns
`v2`. -/
theorem C8_upsert_pin_last_wins (db : DB) (k : List Char) (v1 v2 : View)
    (hwf : WF db) (h1 : v1 ∈ db.views) (h2 : v2 ∈ db.views) :
    PinUpsertLastWriteWins db k v1 v2 := by
  rcases upsert_pin_post db k v1 hwf h1 with ⟨i1, hok1, hviews1, _, hwf1, _⟩
  have h2' : v2 ∈ (upsert_pin db k v1).2.views := by rw [hviews1]; exact h2
  rcases upsert_pin_post (upsert_pin db k v1).2 k v2 hwf1 h2'
    with ⟨i2, hok2, hviews2, _, hwf2, pin, hpk, hpv, hfil⟩
  refine ⟨i1, i2, pin, hok1, hok2, hfil, hpv, ?_⟩
  unfold get_view_for_pin_key
  have hfind2 : (upsert_pin (upsert_pin db k v1).2 k v2).2.pins.find?
      (fun p => p.key == k) = some pin := by
    rw [find?_eq_head?_filter, hfil]
    rfl
  rw [hfind2]
  show (upsert_pin (upsert_pin db k v1).2 k v2).2.views.find?
      (fun v => v.id == pin.view_id) = some v2
  rw [hpv, hviews2, hviews1]
  exact find_unique db.views View.id hwf.view_id_nodup v2 h2

/-- Witness for C8: pinning key `"g"` to view 1 and then to view 2 on a
two-view store leaves one pin row targeting view 2. -/
theorem C8_witness :
    PinUpsertLastWriteWins
      (add_view_to_project (add_project emptyDB ['p']).2 ⟨1, 1, ['p']⟩ ['b']).2
      ['g'] ⟨1, default_view_name, 1, 0⟩ ⟨2, ['b'], 1, 1⟩ :=
  C8_upsert_pin_last_wins
    (add_view_to_project (add_project emptyDB ['p']).2 ⟨1, 1, ['p']⟩ ['b']).2
    ['g'] ⟨1, default_view_name, 1, 0⟩ ⟨2, ['b'], 1, 1⟩
    (by constructor <;> decide) (by decide) (by decide)

/-- Store-level failures the underlying SQLite connection can produce
independently of the query's result set (a lock timeout after the configured
busy wait, or any other engine failure). -/
inductive StoreError where
  | busy
  | engineFailure
deriving DecidableEq

/-- How `Repository::get_view_by_id` maps the raw outcome of its store query
onto the method's return value: `.optional()` turns the no-rows case into
`Ok(None)`, and the trailing `.ok()?` then collapses every remaining
store-level error into `None` as well — the method's return type
`Option<View>` carries no error channel at all. -/
def get_view_by_id_outcome (r : Except StoreError (Option View)) : Option View :=
  match r with
  | .ok v => v
  | .error _ => none

/-- The same `.optional().ok()?` combinator chain in
`Repository::get_project_by_name`. -/
def get_project_by_name_outcome (r : Except StoreError (Option Project)) :
    Option Project :=
  match r with
  | .ok p => p
  | .error _ => none

/-- C10 counterexample: a store-level error (here a lock timeout) inside
`get_view_by_id` is not surfaced to the caller as an error — the method
returns `None`, exactly the value a successful lookup of an absent row
produces; likewise for `get_project_by_name`.  The store error is therefore
silently converted into an absent result, contrary to the claimed
propagation policy. -/
theorem C10_counterexample :
    get_view_by_id_outcome (.error .busy) = none ∧
    get_view_by_id_outcome (.error .busy) = get_view_by_id_outcome (.ok none) ∧
    get_project_by_name_outcome (.error .busy) = none ∧
    get_project_by_name_outcome (.error .busy)
      = get_project_by_name_outcome (.ok none) :=
  ⟨rfl, rfl, rfl, rfl⟩

/-- Tail of `Repository::add_view_to_project` after the transaction commits
and the inserted row is re-read: the result of the
`set_active_view_for_project` call is discarded (`let _ = ...`) and the
method returns `Ok(view)` whatever that call produced — the error type of
the discarded result is arbitrary, covering both the precondition failure
and a store-level failure of the `UPDATE`. -/
def add_view_discard_set_active {ε : Type} (view : View) (r : Except ε View × DB) :
    Except RepoError View × DB :=
  (.ok view, r.2)

/-- C10 (amended): store-level errors are not uniformly surfaced.  The
`Option`-returning lookup methods convert every store-level error into
`None`, indistinguishable from a lookup miss; `add_view_to_project` discards
the result of its final `set_active_view_for_project` call, so even a
store-level failure of that `UPDATE` is swallowed into a successful
`Ok(view)`; and `ClearPin` reports success on every key — in particular on a
key that has no pin row, where deleting zero rows is defined as success. -/
theorem C10_error_propagation :
    (∀ e : StoreError, get_view_by_id_outcome (.error e) = none) ∧
    (∀ e : StoreError, get_project_by_name_outcome (.error e) = none) ∧
    (∀ (view : View) (e : StoreError) (db : DB),
      add_view_discard_set_active view ((Except.error e : Except StoreError View), db)
        = (.ok view, db)) ∧
    (∀ (db : DB) (k : List Char), (clear_pin db k).1 = .ok ()) :=
  ⟨fun _ => rfl, fun _ => rfl, fun _ _ _ => rfl, fun _ _ => rfl⟩
